import Mathlib

/-!
Verification of the bitmap-font compiler `convert_bdf_to_bmf.py`:
glyph filtering, cell sizing, sheet layout, rasterization with vertical
flip, codepoint index, and serialization round-trip.
-/

namespace BmfConvert

/-- Declared bounding box of a glyph, as returned by `get_bounding_box()`:
x-offset, y-offset, width, height. Offsets may be negative; the declared
width and height are the nonnegative metrics from the BBX line. -/
structure BBox where
  xoff : Int
  yoff : Int
  w : Nat
  h : Nat
deriving Repr, DecidableEq

/-- One glyph of the parsed BDF file: optional codepoint (absent or `-1`
for unmapped entries is covered by `Option Int`), declared bounding box,
and `data`, the list of per-scanline row masks (one nonnegative integer
per row, most-significant of the low `w` bits = leftmost pixel). -/
structure Glyph where
  codepoint : Option Int
  bbox : BBox
  data : List Nat
deriving Repr, DecidableEq

/-- The parsed source file: an ordered list of glyphs. -/
structure BDFFile where
  glyphs : List Glyph
deriving Repr, DecidableEq

/-- Step 2 condition: the loop body `continue`s (drops the glyph) unless
the codepoint is present and at least 0x20 and both declared width and
declared height are positive. -/
def keep (g : Glyph) : Bool :=
  match g.codepoint with
  | none => false
  | some cp => decide (0x20 ≤ cp) && decide (0 < g.bbox.w) && decide (0 < g.bbox.h)

/-- Step 2: the filtered glyph list, in source order. -/
def filterGlyphs (gs : List Glyph) : List Glyph :=
  gs.filter keep

/-- Step 3: `cell_w = max(g.get_bounding_box()[2] for g in glyphs)`.
Python's `max` over a non-empty sequence of positive numbers coincides
with `foldr max 0`. -/
def cell_w (gs : List Glyph) : Nat :=
  (gs.map (fun g => g.bbox.w)).foldr max 0

/-- Step 3: `cell_h = max(len(g.data) for g in glyphs)`. -/
def cell_h (gs : List Glyph) : Nat :=
  (gs.map (fun g => g.data.length)).foldr max 0

/-- Step 4: `cols = int(math.ceil(math.sqrt(count)))`, the ceiling of the
square root, expressed through `Nat.sqrt`. -/
def cols (n : Nat) : Nat :=
  if Nat.sqrt n * Nat.sqrt n = n then Nat.sqrt n else Nat.sqrt n + 1

/-- Step 4: `rows = int(math.ceil(count / cols))`, the ceiling division,
expressed with natural division. -/
def rowsOf (n : Nat) : Nat :=
  (n + cols n - 1) / cols n

/-- Step 4: `sheet_w = cols * cell_w`. -/
def sheet_w (n cw : Nat) : Nat := cols n * cw

/-- Step 4: `sheet_h = rows * cell_h`. -/
def sheet_h (n ch : Nat) : Nat := rowsOf n * ch

/-- Step 5: `cx = (idx % cols) * cell_w`, the x pixel origin of cell `i`. -/
def originX (n cw i : Nat) : Nat := (i % cols n) * cw

/-- Step 5: `cy = (idx // cols) * cell_h`, the y pixel origin of cell `i`. -/
def originY (n ch i : Nat) : Nat := (i / cols n) * ch

/-- A monochrome image as a pixel function: `true` is a set (1) pixel. -/
def Img : Type := Nat → Nat → Bool

/-- `Image.new("1", ...)`: the all-zero image. -/
def blank : Img := fun _ _ => false

/-- `img.putpixel((px, py), 1)`. -/
def putpixel (img : Img) (px py : Nat) : Img :=
  fun x y => if x = px ∧ y = py then true else img x y

/-- Bit `x` (0 = leftmost) of a row mask of declared width `w`:
`(row_mask >> (w - 1 - x)) & 1`. -/
def bitAt (w mask x : Nat) : Bool :=
  (mask >>> (w - 1 - x)) % 2 = 1

/-- Inner rasterization loop over `x in range(w)` for one row `y` with
mask `mask`: set cell pixel `(x, cell_h - 1 - y)` for each set bit. -/
def rasterRow (w ch y mask : Nat) (img : Img) : Img :=
  (List.range w).foldl
    (fun im x => if bitAt w mask x then putpixel im x (ch - 1 - y) else im) img

/-- The `for y, row_mask in enumerate(g.data)` loop with the enumeration
counter made explicit: process the remaining rows starting at index `y`. -/
def rasterRows (w ch y : Nat) (rows : List Nat) (img : Img) : Img :=
  match rows with
  | [] => img
  | mask :: rest => rasterRows w ch (y + 1) rest (rasterRow w ch y mask img)

/-- Step 5 per-glyph loop: `for y, row_mask in enumerate(g.data)`, starting
from a fresh blank cell image of size `cell_w × cell_h`. -/
def rasterGlyph (w ch : Nat) (data : List Nat) : Img :=
  rasterRows w ch 0 data blank

/-- `sheet.paste(cell, (cx, cy))` for a `cw × ch` cell image: overwrite
the rectangle `[cx, cx+cw) × [cy, cy+ch)` with the cell's pixels. -/
def paste (sheet cell : Img) (cx cy cw ch : Nat) : Img :=
  fun x y =>
    if cx ≤ x ∧ x < cx + cw ∧ cy ≤ y ∧ y < cy + ch then cell (x - cx) (y - cy)
    else sheet x y

/-- The `for idx, g in enumerate(glyphs)` loop with the enumeration
counter made explicit: paste each remaining glyph's rasterized cell at
its grid origin (`c` = column count, `cw × ch` = cell size), starting at
index `i`. -/
def pasteGlyphs (cw ch c i : Nat) (gs : List Glyph) (sh : Img) : Img :=
  match gs with
  | [] => sh
  | g :: rest =>
      pasteGlyphs cw ch c (i + 1) rest
        (paste sh (rasterGlyph g.bbox.w ch g.data) ((i % c) * cw) ((i / c) * ch) cw ch)

/-- Step 5 in full: build the sprite sheet for the (filtered) glyph list. -/
def buildSheet (gs : List Glyph) : Img :=
  pasteGlyphs (cell_w gs) (cell_h gs) (cols gs.length) 0 gs blank

/-- Step 6: `index = [g.codepoint for g in glyphs]`. -/
def indexOf (gs : List Glyph) : List (Option Int) :=
  gs.map (fun g => g.codepoint)

/-- Error outcomes of the script: the raised `FileNotFoundError` for a
missing source and the raised `RuntimeError` for an empty filtered set. -/
inductive ConvError where
  | sourceNotFound
  | emptyResult
deriving Repr, DecidableEq

/-- The finished artifact: cell size, grid, codepoint index and sheet. -/
structure Artifact where
  cellW : Nat
  cellH : Nat
  gridCols : Nat
  gridRows : Nat
  index : List (Option Int)
  sheet : Img

/-- The whole conversion as a function of the (optionally present) parsed
source: a missing source raises before parsing; an empty filtered glyph
list raises before any image or file is produced; otherwise every
artifact component is computed from the filtered list. -/
def pipeline (src : Option BDFFile) : Except ConvError Artifact :=
  match src with
  | none => .error .sourceNotFound
  | some bdf =>
    let gs := filterGlyphs bdf.glyphs
    if gs.isEmpty then .error .emptyResult
    else
      .ok { cellW := cell_w gs
            cellH := cell_h gs
            gridCols := cols gs.length
            gridRows := rowsOf gs.length
            index := indexOf gs
            sheet := buildSheet gs }

/-! Sample glyphs: the two glyphs of the spec's Scenario A, and a glyph
whose declared height is positive while its row list is empty. -/

/-- Scenario A glyph `0x41`: width 3, rows `[0b101, 0b111]`. -/
def gA : Glyph := { codepoint := some 0x41, bbox := ⟨0, 0, 3, 2⟩, data := [5, 7] }

/-- Scenario A glyph `0x42`: width 2, rows `[0b1, 0b10, 0b11]`. -/
def gB : Glyph := { codepoint := some 0x42, bbox := ⟨0, 0, 2, 3⟩, data := [1, 2, 3] }

/-- A glyph with declared bounding-box height 1 but an empty row list. -/
def gEmptyRows : Glyph := { codepoint := some 0x41, bbox := ⟨0, 0, 1, 1⟩, data := [] }

/-! Helper lemmas about `foldr max 0`, the shape of Python's `max` over a
non-empty sequence of naturals. -/

theorem le_foldr_max (l : List Nat) (x : Nat) (hx : x ∈ l) : x ≤ l.foldr max 0 := by
  induction l with
  | nil => cases hx
  | cons a t ih =>
    rcases List.mem_cons.mp hx with h | h
    · subst h; exact le_max_left _ _
    · exact le_trans (ih h) (le_max_right _ _)

theorem foldr_max_mem (l : List Nat) (h : l ≠ []) : l.foldr max 0 ∈ l := by
  induction l with
  | nil => exact absurd rfl h
  | cons a t ih =>
    cases t with
    | nil => simp
    | cons b t2 =>
      have hm := ih (by simp)
      rcases max_choice a ((b :: t2).foldr max 0) with h1 | h1 <;>
        simp only [List.foldr, h1] at *
      · exact List.mem_cons_self _ _
      · exact List.mem_cons_of_mem _ hm

/-- The filter condition, characterized. -/
theorem keep_iff (g : Glyph) :
    keep g = true ↔
      ∃ cp, g.codepoint = some cp ∧ 0x20 ≤ cp ∧ 0 < g.bbox.w ∧ 0 < g.bbox.h := by
  cases hcp : g.codepoint with
  | none => simp [keep, hcp]
  | some cp => simp [keep, hcp, and_assoc]

/-- C2: the claimed filter condition requires a non-empty row list, but the
code tests the declared bounding-box height; `gEmptyRows` has codepoint
`0x41 ≥ 0x20`, width `1 > 0`, declared height `1 > 0` and an empty row
list, and the filter keeps it. -/
theorem C2_counterexample : keep gEmptyRows = true ∧ gEmptyRows.data = [] :=
  ⟨rfl, rfl⟩

/-- C2 (amended): the filter keeps `g` iff `g.codepoint` is present,
`≥ 0x20`, `g.boundingBox.width > 0` and `g.boundingBox.height > 0` (the
declared height, not the row count); retained glyphs keep their relative
source order (sublist), and the glyphs themselves are unchanged. -/
theorem C2_filter_spec (src : List Glyph) :
    (filterGlyphs src).Sublist src ∧
    ∀ g, g ∈ filterGlyphs src ↔
      (g ∈ src ∧ ∃ cp, g.codepoint = some cp ∧ 0x20 ≤ cp ∧ 0 < g.bbox.w ∧ 0 < g.bbox.h) := by
  refine ⟨List.filter_sublist src, fun g => ?_⟩
  rw [filterGlyphs, List.mem_filter, keep_iff]

/-- C2 witness: the amended filter characterization at Scenario A's input
extended with a filtered-out glyph. -/
theorem C2_filter_spec_witness :
    (filterGlyphs [gA, { codepoint := none, bbox := ⟨0, 0, 1, 1⟩, data := [1] }]).Sublist
        [gA, { codepoint := none, bbox := ⟨0, 0, 1, 1⟩, data := [1] }] ∧
    ∀ g, g ∈ filterGlyphs [gA, { codepoint := none, bbox := ⟨0, 0, 1, 1⟩, data := [1] }] ↔
      (g ∈ [gA, { codepoint := none, bbox := ⟨0, 0, 1, 1⟩, data := [1] }] ∧
        ∃ cp, g.codepoint = some cp ∧ 0x20 ≤ cp ∧ 0 < g.bbox.w ∧ 0 < g.bbox.h) :=
  C2_filter_spec [gA, { codepoint := none, bbox := ⟨0, 0, 1, 1⟩, data := [1] }]

/-- C3: over a non-empty glyph list, `cell_w` is the maximum declared
width and `cell_h` the maximum actual row count; each maximum is attained
by some glyph, the two independently. -/
theorem C3_cell_size (gs : List Glyph) (h : gs ≠ []) :
    (∀ g ∈ gs, g.bbox.w ≤ cell_w gs) ∧
    (∃ g ∈ gs, cell_w gs = g.bbox.w) ∧
    (∀ g ∈ gs, g.data.length ≤ cell_h gs) ∧
    (∃ g ∈ gs, cell_h gs = g.data.length) := by
  have hw : gs.map (fun g => g.bbox.w) ≠ [] := by
    simpa using h
  have hh : gs.map (fun g => g.data.length) ≠ [] := by
    simpa using h
  refine ⟨fun g hg => ?_, ?_, fun g hg => ?_, ?_⟩
  · exact le_foldr_max _ _ (List.mem_map_of_mem _ hg)
  · rcases List.mem_map.mp (foldr_max_mem _ hw) with ⟨g, hg, hgw⟩
    exact ⟨g, hg, hgw.symm⟩
  · exact le_foldr_max _ _ (List.mem_map_of_mem _ hg)
  · rcases List.mem_map.mp (foldr_max_mem _ hh) with ⟨g, hg, hgh⟩
    exact ⟨g, hg, hgh.symm⟩

/-- C3 witness: on Scenario A's glyph list, cell width 3 comes from `gA`
and cell height 3 from `gB`. -/
theorem C3_cell_size_witness :
    ((∀ g ∈ [gA, gB], g.bbox.w ≤ cell_w [gA, gB]) ∧
      (∃ g ∈ [gA, gB], cell_w [gA, gB] = g.bbox.w) ∧
      (∀ g ∈ [gA, gB], g.data.length ≤ cell_h [gA, gB]) ∧
      (∃ g ∈ [gA, gB], cell_h [gA, gB] = g.data.length)) ∧
    cell_w [gA, gB] = 3 ∧ cell_h [gA, gB] = 3 :=
  ⟨C3_cell_size [gA, gB] (by simp), rfl, rfl⟩

/-- C6: the codepoint index has one entry per retained glyph, in placement
order: `index[i] = GlyphSet[i].codepoint`. -/
theorem C6_index (gs : List Glyph) :
    (indexOf gs).length = gs.length ∧
    ∀ i (hi : i < (indexOf gs).length) (hg : i < gs.length),
      (indexOf gs).get ⟨i, hi⟩ = (gs.get ⟨i, hg⟩).codepoint := by
  refine ⟨by simp [indexOf], fun i hi hg => ?_⟩
  simp [indexOf]

/-- C6 witness: the index of Scenario A's glyph list is `[0x41, 0x42]`,
entry by entry. -/
theorem C6_index_witness :
    (indexOf [gA, gB]).length = [gA, gB].length ∧
    ∀ i (hi : i < (indexOf [gA, gB]).length) (hg : i < [gA, gB].length),
      (indexOf [gA, gB]).get ⟨i, hi⟩ = ([gA, gB].get ⟨i, hg⟩).codepoint :=
  C6_index [gA, gB]

/-! Helper lemmas about the grid layout. -/

theorem cols_pos (n : Nat) (hn : 1 ≤ n) : 1 ≤ cols n := by
  rw [cols]
  split
  · rename_i h
    rcases Nat.eq_zero_or_pos (Nat.sqrt n) with h0 | h0
    · rw [h0] at h
      simp at h
      omega
    · exact h0
  · omega

theorem le_cols_sq (n : Nat) : n ≤ cols n * cols n := by
  rw [cols]
  split
  · rename_i h
    exact le_of_eq h.symm
  · exact Nat.le_of_lt (Nat.lt_succ_sqrt n)

/-- Pin down `Nat.sqrt` at a concrete value (it is defined by
well-founded recursion, so kernel reduction gets stuck on it). -/
theorem sqrt_val {n k : Nat} (h1 : k * k ≤ n) (h2 : n < (k + 1) * (k + 1)) :
    Nat.sqrt n = k := by
  have ha : k ≤ Nat.sqrt n := Nat.le_sqrt.mpr h1
  have hb : Nat.sqrt n < k + 1 := by
    by_contra hc
    have h3 : (k + 1) * (k + 1) ≤ n :=
      le_trans (Nat.mul_le_mul (by omega) (by omega)) (Nat.sqrt_le n)
    omega
  omega

theorem cols_two : cols 2 = 2 := by
  rw [cols, sqrt_val (show 1 * 1 ≤ 2 by norm_num) (by norm_num)]
  norm_num

theorem rowsOf_two : rowsOf 2 = 1 := by
  rw [rowsOf, cols_two]

theorem cols_five : cols 5 = 3 := by
  rw [cols, sqrt_val (show 2 * 2 ≤ 5 by norm_num) (by norm_num)]
  norm_num

theorem rowsOf_five : rowsOf 5 = 2 := by
  rw [rowsOf, cols_five]

theorem cols_min (n k : Nat) (hk : n ≤ k * k) : cols n ≤ k := by
  rw [cols]
  split
  · rename_i h
    calc Nat.sqrt n ≤ Nat.sqrt (k * k) := Nat.sqrt_le_sqrt hk
      _ = k := Nat.sqrt_eq k
  · rename_i h
    by_contra hc
    have h1 : k ≤ Nat.sqrt n := by omega
    have h2 : k * k ≤ n := le_trans (Nat.mul_le_mul h1 h1) (Nat.sqrt_le n)
    have h3 : n = k * k := le_antisymm hk h2
    exact h (by rw [h3, Nat.sqrt_eq])

/-- `rowsOf n` is the least `r` with `cols n * r ≥ n`, i.e. the ceiling of
`n / cols n`. -/
theorem rowsOf_le_iff (n r : Nat) (hn : 1 ≤ n) : rowsOf n ≤ r ↔ n ≤ cols n * r := by
  have hc : 1 ≤ cols n := cols_pos n hn
  have h1 : rowsOf n ≤ r ↔ n + cols n - 1 < (r + 1) * cols n := by
    rw [rowsOf, ← Nat.lt_succ_iff, Nat.div_lt_iff_lt_mul (by omega : 0 < cols n)]
  rw [h1, Nat.succ_mul, Nat.mul_comm (cols n) r]
  set m := r * cols n
  omega

/-- C4: the layout computes `cols` as the ceiling of the square root of
`n` (the least `k` with `k * k ≥ n`), `rows` as the ceiling of `n / cols`
(the least `r` with `cols * r ≥ n`), the sheet pixel size as
`(cols * cellWidth, rows * cellHeight)`, and places glyph `i` at pixel
origin `((i mod cols) * cellWidth, (i div cols) * cellHeight)`; all of
these are functions of `n` and the cell size only, never of glyph
content. -/
theorem C4_layout (n cw ch : Nat) (hn : 1 ≤ n) :
    (n ≤ cols n * cols n ∧ ∀ k, n ≤ k * k → cols n ≤ k) ∧
    (∀ r, rowsOf n ≤ r ↔ n ≤ cols n * r) ∧
    sheet_w n cw = cols n * cw ∧
    sheet_h n ch = rowsOf n * ch ∧
    ∀ i, originX n cw i = (i % cols n) * cw ∧ originY n ch i = (i / cols n) * ch :=
  ⟨⟨le_cols_sq n, fun k hk => cols_min n k hk⟩, fun r => rowsOf_le_iff n r hn,
    rfl, rfl, fun _ => ⟨rfl, rfl⟩⟩

/-- C4 witness: Scenario A, `n = 2` with cell size `3 × 3`: a `2 × 1`
grid, sheet `6 × 3`, origins `(0,0)` and `(3,0)`. -/
theorem C4_layout_witness :
    ((2 ≤ cols 2 * cols 2 ∧ ∀ k, 2 ≤ k * k → cols 2 ≤ k) ∧
      (∀ r, rowsOf 2 ≤ r ↔ 2 ≤ cols 2 * r) ∧
      sheet_w 2 3 = cols 2 * 3 ∧
      sheet_h 2 3 = rowsOf 2 * 3 ∧
      ∀ i, originX 2 3 i = (i % cols 2) * 3 ∧ originY 2 3 i = (i / cols 2) * 3) ∧
    cols 2 = 2 ∧ rowsOf 2 = 1 ∧ sheet_w 2 3 = 6 ∧ sheet_h 2 3 = 3 ∧
    originX 2 3 0 = 0 ∧ originX 2 3 1 = 3 ∧ originY 2 3 1 = 0 :=
  ⟨C4_layout 2 3 3 (by decide), cols_two, rowsOf_two,
    by rw [sheet_w, cols_two], by rw [sheet_h, rowsOf_two],
    by rw [originX, cols_two], by rw [originX, cols_two],
    by rw [originY, cols_two]⟩

/-- C5: for every `n ≥ 1` the grid has enough cells, `cols * rows ≥ n`,
and would not fit with one row fewer, `cols * (rows - 1) < n`. -/
theorem C5_grid (n : Nat) (hn : 1 ≤ n) :
    n ≤ cols n * rowsOf n ∧ cols n * (rowsOf n - 1) < n := by
  have h1 := (rowsOf_le_iff n (rowsOf n) hn).mp le_rfl
  have h3 : ¬ n ≤ cols n * (rowsOf n - 1) := by
    intro hc
    have hr : 1 ≤ rowsOf n := by
      rcases Nat.eq_zero_or_pos (rowsOf n) with h0 | h0
      · have h4 := (rowsOf_le_iff n 0 hn).mp (le_of_eq h0)
        simp at h4
        omega
      · exact h0
    have h5 := (rowsOf_le_iff n (rowsOf n - 1) hn).mpr hc
    omega
  exact ⟨h1, not_le.mp h3⟩

/-- C5 witness: at `n = 5`, `cols = 3`, `rows = 2`: `3 * 2 ≥ 5` and
`3 * 1 < 5`. -/
theorem C5_grid_witness :
    (5 ≤ cols 5 * rowsOf 5 ∧ cols 5 * (rowsOf 5 - 1) < 5) ∧
    cols 5 = 3 ∧ rowsOf 5 = 2 :=
  ⟨C5_grid 5 (by decide), cols_five, rowsOf_five⟩

/-- A glyph whose codepoint `0x1F` is below the printable threshold, so
the filter drops it (the spec's Scenario B shape). -/
def gCtrl : Glyph := { codepoint := some 0x1F, bbox := ⟨0, 0, 2, 2⟩, data := [1, 2] }

/-- C7: a missing source makes the run fail signalling the missing
source, an all-filtered-out source makes it fail signalling the empty
result, and an error run produces no artifact (the pipeline's `Except`
result is the full observable outcome: the script raises before the
output file is opened, so an `error` result carries no output). -/
theorem C7_errors (bdf : BDFFile) (hempty : filterGlyphs bdf.glyphs = []) :
    pipeline none = .error ConvError.sourceNotFound ∧
    pipeline (some bdf) = .error ConvError.emptyResult ∧
    ∀ src e, pipeline src = .error e → ∀ a, pipeline src ≠ .ok a := by
  refine ⟨rfl, ?_, ?_⟩
  · simp [pipeline, hempty]
  · intro src e he a hok
    rw [he] at hok
    exact Except.noConfusion hok

/-- C7 witness: Scenario B at a one-glyph source whose only codepoint is
`0x1F < 0x20`. -/
theorem C7_errors_witness :
    (pipeline none = .error ConvError.sourceNotFound ∧
      pipeline (some ⟨[gCtrl]⟩) = .error ConvError.emptyResult ∧
      ∀ src e, pipeline src = .error e → ∀ a, pipeline src ≠ .ok a) ∧
    filterGlyphs [gCtrl] = [] :=
  ⟨C7_errors ⟨[gCtrl]⟩ rfl, rfl⟩

/-- C8: the conversion is a pure function of the parsed source: equal
glyph lists give equal pipeline results, and in particular pixel-equal
sheets. -/
theorem C8_deterministic (b1 b2 : BDFFile) (h : b1.glyphs = b2.glyphs) :
    pipeline (some b1) = pipeline (some b2) ∧
    ∀ x y, buildSheet (filterGlyphs b1.glyphs) x y
      = buildSheet (filterGlyphs b2.glyphs) x y := by
  cases b1
  cases b2
  cases h
  exact ⟨rfl, fun _ _ => rfl⟩

/-- C8 witness: two runs on Scenario A's source agree. -/
theorem C8_deterministic_witness :
    pipeline (some ⟨[gA, gB]⟩) = pipeline (some ⟨[gA, gB]⟩) ∧
    ∀ x y, buildSheet (filterGlyphs [gA, gB]) x y
      = buildSheet (filterGlyphs [gA, gB]) x y :=
  C8_deterministic ⟨[gA, gB]⟩ ⟨[gA, gB]⟩ rfl

/-! Pixel-level characterization of the rasterization loops. -/

theorem putpixel_eq_true_iff (img : Img) (px py x y : Nat) :
    putpixel img px py x y = true ↔ (x = px ∧ y = py) ∨ img x y = true := by
  simp only [putpixel]
  split
  · rename_i h
    simp [h]
  · rename_i h
    simp [h]

theorem foldl_setbits_eq (w ch y mask : Nat) (L : List Nat) (img : Img) (x yy : Nat) :
    (L.foldl (fun im xv => if bitAt w mask xv then putpixel im xv (ch - 1 - y) else im)
        img) x yy = true ↔
      (x ∈ L ∧ bitAt w mask x = true ∧ yy = ch - 1 - y) ∨ img x yy = true := by
  induction L generalizing img with
  | nil => simp
  | cons a t ih =>
    rw [List.foldl_cons, ih]
    constructor
    · rintro (⟨hxt, hbx, hyy⟩ | hstep)
      · exact Or.inl ⟨List.mem_cons_of_mem _ hxt, hbx, hyy⟩
      · by_cases hb : bitAt w mask a
        · rw [if_pos hb] at hstep
          rcases (putpixel_eq_true_iff img a (ch - 1 - y) x yy).mp hstep with
            ⟨rfl, rfl⟩ | him
          · exact Or.inl ⟨List.mem_cons_self _ _, hb, rfl⟩
          · exact Or.inr him
        · rw [if_neg hb] at hstep
          exact Or.inr hstep
    · rintro (⟨hxm, hbx, hyy⟩ | himg)
      · rcases List.mem_cons.mp hxm with rfl | hxt
        · subst hyy
          refine Or.inr ?_
          rw [if_pos hbx]
          exact (putpixel_eq_true_iff img x (ch - 1 - y) x (ch - 1 - y)).mpr
            (Or.inl ⟨rfl, rfl⟩)
        · exact Or.inl ⟨hxt, hbx, hyy⟩
      · refine Or.inr ?_
        by_cases hb : bitAt w mask a
        · rw [if_pos hb]
          exact (putpixel_eq_true_iff img a (ch - 1 - y) x yy).mpr (Or.inr himg)
        · rw [if_neg hb]
          exact himg

theorem rasterRow_eq_true_iff (w ch y mask : Nat) (img : Img) (x yy : Nat) :
    rasterRow w ch y mask img x yy = true ↔
      (x < w ∧ bitAt w mask x = true ∧ yy = ch - 1 - y) ∨ img x yy = true := by
  rw [rasterRow, foldl_setbits_eq, List.mem_range]

theorem rasterRows_eq_true_iff (w ch : Nat) (rows : List Nat) (y0 : Nat) (img : Img)
    (x yy : Nat) :
    rasterRows w ch y0 rows img x yy = true ↔
      (∃ j, ∃ hj : j < rows.length,
        x < w ∧ bitAt w (rows.get ⟨j, hj⟩) x = true ∧ yy = ch - 1 - (y0 + j)) ∨
      img x yy = true := by
  induction rows generalizing y0 img with
  | nil => simp [rasterRows]
  | cons mask rest ih =>
    rw [rasterRows, ih, rasterRow_eq_true_iff]
    constructor
    · rintro (⟨j, hj, hxw, hb, hyy⟩ | (⟨hxw, hb, hyy⟩ | himg))
      · exact Or.inl ⟨j + 1, Nat.succ_lt_succ hj, hxw, hb, by omega⟩
      · exact Or.inl ⟨0, Nat.succ_pos _, hxw, hb, by omega⟩
      · exact Or.inr himg
    · rintro (⟨j, hj, hxw, hb, hyy⟩ | himg)
      · cases j with
        | zero => exact Or.inr (Or.inl ⟨hxw, hb, by omega⟩)
        | succ k =>
          exact Or.inl ⟨k, Nat.lt_of_succ_lt_succ hj, hxw, hb, by omega⟩
      · exact Or.inr (Or.inr himg)

theorem rasterGlyph_eq_true_iff (w ch : Nat) (data : List Nat) (x yy : Nat) :
    rasterGlyph w ch data x yy = true ↔
      ∃ j, ∃ hj : j < data.length,
        x < w ∧ bitAt w (data.get ⟨j, hj⟩) x = true ∧ yy = ch - 1 - j := by
  rw [rasterGlyph, rasterRows_eq_true_iff]
  simp [blank]

/-! The compositing step: each cell occupies a disjoint rectangle of the
sheet, and pasting overwrites exactly that rectangle. -/

theorem paste_in (sheet cell : Img) (cx cy cw ch x y : Nat)
    (h1 : cx ≤ x) (h2 : x < cx + cw) (h3 : cy ≤ y) (h4 : y < cy + ch) :
    paste sheet cell cx cy cw ch x y = cell (x - cx) (y - cy) := by
  simp only [paste]
  rw [if_pos ⟨h1, h2, h3, h4⟩]

theorem paste_out (sheet cell : Img) (cx cy cw ch x y : Nat)
    (h : ¬(cx ≤ x ∧ x < cx + cw ∧ cy ≤ y ∧ y < cy + ch)) :
    paste sheet cell cx cy cw ch x y = sheet x y := by
  simp only [paste]
  rw [if_neg h]

/-- The pixel rectangle of grid cell `i` (column count `c`, cell size
`cw × ch`). -/
def inRegion (c cw ch i x y : Nat) : Prop :=
  (i % c) * cw ≤ x ∧ x < (i % c) * cw + cw ∧ (i / c) * ch ≤ y ∧ y < (i / c) * ch + ch

theorem interval_div (a d x : Nat) (h1 : a * d ≤ x) (h2 : x < a * d + d) : x / d = a :=
  Nat.div_eq_of_lt_le h1 (by rw [Nat.succ_mul]; omega)

theorem region_disjoint (c cw ch i j x y : Nat) (hij : i ≠ j)
    (hi : inRegion c cw ch i x y) (hj : inRegion c cw ch j x y) : False := by
  obtain ⟨hi1, hi2, hi3, hi4⟩ := hi
  obtain ⟨hj1, hj2, hj3, hj4⟩ := hj
  have e1 : x / cw = i % c := interval_div _ _ _ hi1 hi2
  have e2 : x / cw = j % c := interval_div _ _ _ hj1 hj2
  have e3 : y / ch = i / c := interval_div _ _ _ hi3 hi4
  have e4 : y / ch = j / c := interval_div _ _ _ hj3 hj4
  have hmod : i % c = j % c := e1 ▸ e2
  have hdiv : i / c = j / c := e3 ▸ e4
  have d1 := Nat.div_add_mod i c
  have d2 := Nat.div_add_mod j c
  rw [hdiv, hmod] at d1
  exact hij (d1.symm.trans d2)

/-- A point covered by none of the remaining cells is untouched by the
remaining pastes. -/
theorem pasteGlyphs_out (cw ch c : Nat) (gs : List Glyph) (i0 : Nat) (sh : Img)
    (x y : Nat) (h : ∀ k, k < gs.length → ¬ inRegion c cw ch (i0 + k) x y) :
    pasteGlyphs cw ch c i0 gs sh x y = sh x y := by
  induction gs generalizing i0 sh with
  | nil => rfl
  | cons g rest ih =>
    rw [pasteGlyphs]
    rw [ih (i0 + 1) _ (fun k hk hreg => h (k + 1) (Nat.succ_lt_succ hk)
      (by rw [show i0 + (k + 1) = i0 + 1 + k by omega]; exact hreg))]
    exact paste_out _ _ _ _ _ _ _ _ (fun hreg => h 0 (Nat.succ_pos _)
      (by rw [Nat.add_zero]; exact hreg))

/-- A point inside the rectangle of the `j`-th remaining cell reads back
that glyph's rasterized cell pixel. -/
theorem pasteGlyphs_in (cw ch c : Nat) (gs : List Glyph) (j i0 : Nat) (sh : Img)
    (x y : Nat) (hj : j < gs.length) (hin : inRegion c cw ch (i0 + j) x y) :
    pasteGlyphs cw ch c i0 gs sh x y =
      rasterGlyph (gs.get ⟨j, hj⟩).bbox.w ch (gs.get ⟨j, hj⟩).data
        (x - ((i0 + j) % c) * cw) (y - ((i0 + j) / c) * ch) := by
  induction gs generalizing j i0 sh with
  | nil => exact absurd hj (Nat.not_lt_zero _)
  | cons g rest ih =>
    cases j with
    | zero =>
      have hin0 : inRegion c cw ch i0 x y := by
        rw [show i0 = i0 + 0 by omega]
        exact hin
      rw [pasteGlyphs]
      rw [pasteGlyphs_out cw ch c rest (i0 + 1) _ x y
        (fun k hk hreg => region_disjoint c cw ch (i0 + 1 + k) i0 x y (by omega)
          hreg hin0)]
      rw [paste_in _ _ _ _ _ _ _ _ hin0.1 hin0.2.1 hin0.2.2.1 hin0.2.2.2]
      rw [show i0 + 0 = i0 by omega]
      rfl
    | succ k =>
      rw [pasteGlyphs]
      have hk : k < rest.length := Nat.lt_of_succ_lt_succ hj
      have hin2 : inRegion c cw ch (i0 + 1 + k) x y := by
        rw [show i0 + 1 + k = i0 + (k + 1) by omega]
        exact hin
      rw [ih k (i0 + 1) _ hk hin2]
      rw [show i0 + 1 + k = i0 + (k + 1) by omega]
      rfl

/-- The finished sheet, read inside the rectangle of cell `j`: it equals
the `j`-th glyph's rasterized cell. -/
theorem buildSheet_in (gs : List Glyph) (j : Nat) (hj : j < gs.length) (x y : Nat)
    (hin : inRegion (cols gs.length) (cell_w gs) (cell_h gs) j x y) :
    buildSheet gs x y =
      rasterGlyph (gs.get ⟨j, hj⟩).bbox.w (cell_h gs) (gs.get ⟨j, hj⟩).data
        (x - (j % cols gs.length) * cell_w gs)
        (y - (j / cols gs.length) * cell_h gs) := by
  have h0 : inRegion (cols gs.length) (cell_w gs) (cell_h gs) (0 + j) x y := by
    rw [Nat.zero_add]
    exact hin
  have h := pasteGlyphs_in (cell_w gs) (cell_h gs) (cols gs.length) gs j 0 blank
    x y hj h0
  rw [buildSheet, h, Nat.zero_add]

theorem bbw_le_cell_w (gs : List Glyph) (g : Glyph) (hg : g ∈ gs) :
    g.bbox.w ≤ cell_w gs :=
  le_foldr_max _ _ (List.mem_map_of_mem _ hg)

theorem len_le_cell_h (gs : List Glyph) (g : Glyph) (hg : g ∈ gs) :
    g.data.length ≤ cell_h gs :=
  le_foldr_max _ _ (List.mem_map_of_mem _ hg)

/-- C1: for a retained glyph `g` at filtered index `i` with declared
width `w`, every set bit `(g.rows[y] >> (w-1-x)) & 1` makes the finished
sheet pixel at `(origin_x + x, origin_y + cellHeight - 1 - y)` equal 1,
and every pixel inside that glyph's cell that is not derived from such a
set bit is 0. -/
theorem C1_raster (src gs : List Glyph) (_hgs : gs = filterGlyphs src) (i : Nat)
    (hi : i < gs.length) (g : Glyph) (hg : gs.get ⟨i, hi⟩ = g) (ox oy : Nat)
    (hox : ox = originX gs.length (cell_w gs) i)
    (hoy : oy = originY gs.length (cell_h gs) i) :
    (∀ y x (hy : y < g.data.length), x < g.bbox.w →
        bitAt g.bbox.w (g.data.get ⟨y, hy⟩) x = true →
        buildSheet gs (ox + x) (oy + cell_h gs - 1 - y) = true) ∧
    (∀ dx dy, dx < cell_w gs → dy < cell_h gs →
        (¬ ∃ y, ∃ hy : y < g.data.length,
            dx < g.bbox.w ∧ bitAt g.bbox.w (g.data.get ⟨y, hy⟩) dx = true ∧
            dy = cell_h gs - 1 - y) →
        buildSheet gs (ox + dx) (oy + dy) = false) := by
  subst hg hox hoy
  have hmem : gs.get ⟨i, hi⟩ ∈ gs := List.get_mem gs i hi
  have hw : (gs.get ⟨i, hi⟩).bbox.w ≤ cell_w gs := bbw_le_cell_w gs _ hmem
  have hh : (gs.get ⟨i, hi⟩).data.length ≤ cell_h gs := len_le_cell_h gs _ hmem
  constructor
  · intro y x hy hx hb
    have hch : y + 1 ≤ cell_h gs := le_trans hy hh
    have hin : inRegion (cols gs.length) (cell_w gs) (cell_h gs) i
        (originX gs.length (cell_w gs) i + x)
        (originY gs.length (cell_h gs) i + cell_h gs - 1 - y) := by
      refine ⟨?_, ?_, ?_, ?_⟩ <;> simp only [originX, originY] <;> omega
    rw [buildSheet_in gs i hi _ _ hin]
    rw [show originX gs.length (cell_w gs) i + x - i % cols gs.length * cell_w gs
        = x by simp only [originX]; omega]
    rw [show originY gs.length (cell_h gs) i + cell_h gs - 1 - y
          - i / cols gs.length * cell_h gs
        = cell_h gs - 1 - y by simp only [originY]; omega]
    rw [rasterGlyph_eq_true_iff]
    exact ⟨y, hy, hx, hb, rfl⟩
  · intro dx dy hdx hdy hno
    have hin : inRegion (cols gs.length) (cell_w gs) (cell_h gs) i
        (originX gs.length (cell_w gs) i + dx)
        (originY gs.length (cell_h gs) i + dy) := by
      refine ⟨?_, ?_, ?_, ?_⟩ <;> simp only [originX, originY] <;> omega
    rw [buildSheet_in gs i hi _ _ hin]
    rw [show originX gs.length (cell_w gs) i + dx - i % cols gs.length * cell_w gs
        = dx by simp only [originX]; omega]
    rw [show originY gs.length (cell_h gs) i + dy - i / cols gs.length * cell_h gs
        = dy by simp only [originY]; omega]
    cases hval : rasterGlyph (gs.get ⟨i, hi⟩).bbox.w (cell_h gs)
        (gs.get ⟨i, hi⟩).data dx dy with
    | false => rfl
    | true =>
      obtain ⟨j, hj, hdxw, hb, hdyj⟩ := (rasterGlyph_eq_true_iff _ _ _ _ _).mp hval
      exact absurd ⟨j, hj, hdxw, hb, hdyj⟩ hno

/-- C1 witness: Scenario A's glyph `gB` at filtered index 1: every set
bit of its rows lights the flipped sheet pixel, and every other pixel of
its cell is 0. -/
theorem C1_raster_witness :
    (∀ y x (hy : y < gB.data.length), x < gB.bbox.w →
        bitAt gB.bbox.w (gB.data.get ⟨y, hy⟩) x = true →
        buildSheet (filterGlyphs [gA, gB])
          (originX (filterGlyphs [gA, gB]).length (cell_w (filterGlyphs [gA, gB])) 1 + x)
          (originY (filterGlyphs [gA, gB]).length (cell_h (filterGlyphs [gA, gB])) 1
            + cell_h (filterGlyphs [gA, gB]) - 1 - y) = true) ∧
    (∀ dx dy, dx < cell_w (filterGlyphs [gA, gB]) →
        dy < cell_h (filterGlyphs [gA, gB]) →
        (¬ ∃ y, ∃ hy : y < gB.data.length,
            dx < gB.bbox.w ∧ bitAt gB.bbox.w (gB.data.get ⟨y, hy⟩) dx = true ∧
            dy = cell_h (filterGlyphs [gA, gB]) - 1 - y) →
        buildSheet (filterGlyphs [gA, gB])
          (originX (filterGlyphs [gA, gB]).length (cell_w (filterGlyphs [gA, gB])) 1 + dx)
          (originY (filterGlyphs [gA, gB]).length (cell_h (filterGlyphs [gA, gB])) 1
            + dy) = false) :=
  C1_raster [gA, gB] (filterGlyphs [gA, gB]) rfl 1 (by decide) gB rfl _ _ rfl rfl

/-! Bounds of the cell origins within the sheet. -/

theorem originX_bound (gs : List Glyph) (i : Nat) (hi : i < gs.length) :
    originX gs.length (cell_w gs) i + cell_w gs ≤ sheet_w gs.length (cell_w gs) := by
  have hn : 1 ≤ gs.length := by omega
  have hc : 1 ≤ cols gs.length := cols_pos _ hn
  have h1 : i % cols gs.length + 1 ≤ cols gs.length := Nat.mod_lt i (by omega)
  simp only [originX, sheet_w]
  calc i % cols gs.length * cell_w gs + cell_w gs
      = (i % cols gs.length + 1) * cell_w gs := by ring
    _ ≤ cols gs.length * cell_w gs := Nat.mul_le_mul_right _ h1

theorem originY_bound (gs : List Glyph) (i : Nat) (hi : i < gs.length) :
    originY gs.length (cell_h gs) i + cell_h gs ≤ sheet_h gs.length (cell_h gs) := by
  have hn : 1 ≤ gs.length := by omega
  have hc : 1 ≤ cols gs.length := cols_pos _ hn
  have hr : gs.length ≤ cols gs.length * rowsOf gs.length :=
    (rowsOf_le_iff gs.length _ hn).mp le_rfl
  have h2 : i / cols gs.length < rowsOf gs.length := by
    rw [Nat.div_lt_iff_lt_mul (by omega : 0 < cols gs.length)]
    calc i < gs.length := hi
      _ ≤ cols gs.length * rowsOf gs.length := hr
      _ = rowsOf gs.length * cols gs.length := Nat.mul_comm _ _
  simp only [originY, sheet_h]
  calc i / cols gs.length * cell_h gs + cell_h gs
      = (i / cols gs.length + 1) * cell_h gs := by ring
    _ ≤ rowsOf gs.length * cell_h gs := Nat.mul_le_mul_right _ h2

/-- C10: every rasterization write and every paste stays in bounds: for
each glyph of the set, each written cell coordinate satisfies
`x < cellWidth` and `cellHeight - 1 - y < cellHeight`, and each cell's
pasted rectangle ends within the sheet in both directions. -/
theorem C10_inbounds (gs : List Glyph) :
    (∀ g ∈ gs, ∀ y, y < g.data.length → ∀ x, x < g.bbox.w →
        x < cell_w gs ∧ cell_h gs - 1 - y < cell_h gs) ∧
    (∀ i, i < gs.length →
        originX gs.length (cell_w gs) i + cell_w gs ≤ sheet_w gs.length (cell_w gs) ∧
        originY gs.length (cell_h gs) i + cell_h gs ≤ sheet_h gs.length (cell_h gs)) := by
  constructor
  · intro g hg y hy x hx
    have hw := bbw_le_cell_w gs g hg
    have hh := len_le_cell_h gs g hg
    exact ⟨by omega, by omega⟩
  · intro i hi
    exact ⟨originX_bound gs i hi, originY_bound gs i hi⟩

/-- C10 witness: the bounds at Scenario A's glyph list. -/
theorem C10_inbounds_witness :
    (∀ g ∈ [gA, gB], ∀ y, y < g.data.length → ∀ x, x < g.bbox.w →
        x < cell_w [gA, gB] ∧ cell_h [gA, gB] - 1 - y < cell_h [gA, gB]) ∧
    (∀ i, i < [gA, gB].length →
        originX [gA, gB].length (cell_w [gA, gB]) i + cell_w [gA, gB]
          ≤ sheet_w [gA, gB].length (cell_w [gA, gB]) ∧
        originY [gA, gB].length (cell_h [gA, gB]) i + cell_h [gA, gB]
          ≤ sheet_h [gA, gB].length (cell_h [gA, gB])) :=
  C10_inbounds [gA, gB]

/-! Serialization. -/

/-- Modelled from the spec: the serializer and loader
(`luma.core.bitmap_font.load_sprite_table` and `font.save`) are library
code absent from this repository; per §4.7 and §6 the artifact stores,
losslessly, the sheet pixel dimensions, the cell size, the ordered
codepoint index, and the raw sheet pixel data one bit per pixel,
row-major with sheet-width stride. -/
structure SavedFont where
  width : Nat
  height : Nat
  cellW : Nat
  cellH : Nat
  index : List (Option Int)
  bits : List Bool
deriving Repr, DecidableEq

/-- One scanline of the sheet, leftmost pixel first. -/
def rowBits (img : Img) (w y : Nat) : List Bool :=
  (List.range w).map (fun x => img x y)

/-- Rows `0 .. h-1` of the sheet concatenated, row-major with stride `w`. -/
def sheetBits (img : Img) (w : Nat) : Nat → List Bool
  | 0 => []
  | h + 1 => sheetBits img w h ++ rowBits img w h

/-- Modelled from the spec: `font.save` writes the sheet, the index and
the sizing metadata of the glyph list's conversion into one artifact. -/
def saveFont (gs : List Glyph) : SavedFont :=
  { width := sheet_w gs.length (cell_w gs)
    height := sheet_h gs.length (cell_h gs)
    cellW := cell_w gs
    cellH := cell_h gs
    index := indexOf gs
    bits := sheetBits (buildSheet gs) (sheet_w gs.length (cell_w gs))
      (sheet_h gs.length (cell_h gs)) }

/-- Modelled from the spec: reading pixel `(x, y)` back from the loaded
artifact, row-major with sheet-width stride. -/
def loadPixel (f : SavedFont) (x y : Nat) : Bool :=
  f.bits.getD (y * f.width + x) false

theorem sheetBits_length (img : Img) (w h : Nat) :
    (sheetBits img w h).length = h * w := by
  induction h with
  | zero => simp [sheetBits]
  | succ k ih => simp [sheetBits, rowBits, ih, Nat.succ_mul]

theorem sheetBits_getD (img : Img) (w : Nat) (h x y : Nat) (hx : x < w) (hy : y < h) :
    (sheetBits img w h).getD (y * w + x) false = img x y := by
  induction h with
  | zero => omega
  | succ k ih =>
    rcases Nat.lt_or_ge y k with h1 | h1
    · rw [sheetBits, List.getD_append _ _ _ _ (by
        rw [sheetBits_length]
        calc y * w + x < y * w + w := by omega
          _ = (y + 1) * w := by ring
          _ ≤ k * w := Nat.mul_le_mul_right _ (by omega))]
      exact ih h1
    · have hy2 : y = k := by omega
      subst hy2
      rw [sheetBits, List.getD_append_right _ _ _ _ (by
        rw [sheetBits_length]
        omega)]
      rw [sheetBits_length]
      rw [show y * w + x - y * w = x by omega]
      rw [rowBits, List.getD_eq_getElem _ _ (by simpa using hx)]
      simp

/-- C9: serialization is lossless — for every position `i` of the
codepoint index and every coordinate of cell `i`, reading the saved
artifact back yields exactly the sheet pixel rasterization placed there,
and the saved index itself is reproduced unchanged. -/
theorem C9_roundtrip (gs : List Glyph) (i : Nat) (hi : i < (indexOf gs).length)
    (dx dy : Nat) (hdx : dx < cell_w gs) (hdy : dy < cell_h gs) :
    loadPixel (saveFont gs)
        (originX gs.length (cell_w gs) i + dx)
        (originY gs.length (cell_h gs) i + dy)
      = buildSheet gs
          (originX gs.length (cell_w gs) i + dx)
          (originY gs.length (cell_h gs) i + dy) ∧
    (saveFont gs).index = indexOf gs := by
  have hig : i < gs.length := by simpa [indexOf] using hi
  have hxb : originX gs.length (cell_w gs) i + dx < sheet_w gs.length (cell_w gs) := by
    have := originX_bound gs i hig
    omega
  have hyb : originY gs.length (cell_h gs) i + dy < sheet_h gs.length (cell_h gs) := by
    have := originY_bound gs i hig
    omega
  refine ⟨?_, rfl⟩
  rw [loadPixel]
  exact sheetBits_getD _ _ _ _ _ hxb hyb

/-- C9 witness: the top-left pixel of `gA`'s cell in Scenario A survives
the save/load round trip. -/
theorem C9_roundtrip_witness :
    (loadPixel (saveFont [gA, gB])
        (originX [gA, gB].length (cell_w [gA, gB]) 0 + 0)
        (originY [gA, gB].length (cell_h [gA, gB]) 0 + 0)
      = buildSheet [gA, gB]
          (originX [gA, gB].length (cell_w [gA, gB]) 0 + 0)
          (originY [gA, gB].length (cell_h [gA, gB]) 0 + 0) ∧
    (saveFont [gA, gB]).index = indexOf [gA, gB]) :=
  C9_roundtrip [gA, gB] 0 (by decide) 0 0 (by decide) (by decide)

end BmfConvert
